import Mathlib

/-!
Shallow embedding of the `lamport_sigs` Rust crate (`src/lib.rs`), a one-time
Lamport signature scheme over a configurable hash algorithm.

Modelling conventions:
* A Rust `u8` is modelled as `Nat` (the only byte operations used are the bit
  test `byte & (1 << j) > 0`, equality, and overwriting with `0`, none of
  which need a modulus).
* `&'static Algorithm` (a reference to one of the static `ring` digest
  algorithms) is modelled by the structure `Algorithm`; the field `id` stands
  for the address of the static value, so the pointer comparison in
  `PublicKey::eq` becomes comparison of `id`.  The `ring` context pipeline
  `Context::new(alg); update(data); finish()` is modelled by the pure function
  field `digest` (the hash is deterministic with fixed output length).
* A Rust panic (out-of-bounds `Vec` indexing) is modelled by `Option`:
  a function that can panic returns `none` exactly on the inputs where the
  Rust code panics.  `PublicKey::from_vec` returns `Option (Option PublicKey)`:
  the outer layer models the panic, the inner layer is the `Option` the Rust
  function itself returns.
* `PrivateKey::sign` takes `&mut self`; it is modelled in state-passing style,
  returning the result together with the updated key.
-/

/-- Bytes are modelled as natural numbers. -/
abbrev Byte := Nat

/-- Model of `ring::digest::Algorithm` (a static hash algorithm description).
`id` models the address of the static value, `output_len` the field
`Algorithm::output_len`, and `digest` the action of hashing a byte string
with this algorithm. -/
structure Algorithm where
  id : Nat
  output_len : Nat
  digest : List Byte → List Byte

/-- The contract of a hash algorithm from the spec: fixed output length.
Every `ring` algorithm satisfies this; theorems about code paths that hash
take it as a hypothesis. -/
def Algorithm.valid (alg : Algorithm) : Prop :=
  ∀ data : List Byte, (alg.digest data).length = alg.output_len

/-- `type LamportSignatureData = Vec<Vec<u8>>` -/
abbrev LamportSignatureData := List (List Byte)

/-- Model of `struct PublicKey`. -/
structure PublicKey where
  zero_values : List (List Byte)
  one_values : List (List Byte)
  algorithm : Algorithm

/-- Model of `struct PrivateKey`. -/
structure PrivateKey where
  zero_values : List (List Byte)
  one_values : List (List Byte)
  algorithm : Algorithm
  used : Bool

/-- `impl PartialEq for PublicKey`: compares both digest arrays and the
algorithm by pointer address (modelled by `id`). -/
def PublicKey.eq (a b : PublicKey) : Bool :=
  a.zero_values == b.zero_values &&
  a.one_values == b.one_values &&
  a.algorithm.id == b.algorithm.id

/-- `Option.bind`-style sequencing helper: maps a fallible function over a
list, failing (modelling a panic inside a Rust loop) as soon as one element
fails. -/
def mapOpt (f : α → Option β) : List α → Option (List β)
  | [] => some []
  | a :: l => do
    let b ← f a
    let r ← mapOpt f l
    pure (b :: r)

/-- The inner loop of `PublicKey::from_vec`: `for j in 0..hash_output_size
{ sub_vec.push(merged[i + j]); }` — reads `merged[i]`, …, `merged[i+n-1]`,
panicking (`none`) on an out-of-bounds index. -/
def takeChunkAux (merged : List Byte) (i : Nat) : Nat → Option (List Byte)
  | 0 => some []
  | n + 1 => do
    let b ← merged.get? i
    let rest ← takeChunkAux merged (i + 1) n
    pure (b :: rest)

/-- The outer iterator of `PublicKey::from_vec`:
`(0..merged.len()).filter(|x| x % hash_output_size == 0)`. -/
def chunkIndices (len L : Nat) : List Nat :=
  (List.range len).filter (fun x => x % L == 0)

/-- One half of `PublicKey::from_vec`: cut `merged` into chunks of
`hash_output_size` bytes starting at each index divisible by it. -/
def chunksOf (merged : List Byte) (L : Nat) : Option (List (List Byte)) :=
  mapOpt (fun i => takeChunkAux merged i L) (chunkIndices merged.length L)

/-- `PublicKey::from_vec`.  The Rust function returns `Option<PublicKey>`
(the inner `Option`) but can also panic on an out-of-bounds index
(the outer `Option`).  As written in the source it has no length check and
no `return None` path: it either panics or returns `Some`. -/
def PublicKey.from_vec (vec : List Byte) (algorithm : Algorithm) :
    Option (Option PublicKey) := do
  let size := vec.length
  let hash_output_size := algorithm.output_len
  -- `split_off(size / 2)` leaves the first half in place and returns the rest
  let zero_values_merged := vec.take (size / 2)
  let one_values_merged := vec.drop (size / 2)
  let zero_values ← chunksOf zero_values_merged hash_output_size
  let one_values ← chunksOf one_values_merged hash_output_size
  pure (some { zero_values := zero_values, one_values := one_values,
               algorithm := algorithm })

/-- `PublicKey::to_bytes`: fold both arrays, appending every digest. -/
def PublicKey.to_bytes (pk : PublicKey) : List Byte :=
  (pk.zero_values ++ pk.one_values).foldl (fun acc i => acc ++ i) []

/-- The two nested loops of `PrivateKey::sign` and
`PublicKey::verify_signature`: `for (i, byte) in data_hash.iter().enumerate()
{ for j in 0..8 { let offset = i * 8 + j; … } }`, listing each offset together
with the tested bit `(byte & (1 << j)) > 0`. -/
def bitPairsAux : Nat → List Byte → List (Nat × Bool)
  | _, [] => []
  | i, byte :: rest =>
    ((List.range 8).map (fun j => (i * 8 + j, decide (byte &&& (1 <<< j) > 0))))
      ++ bitPairsAux (i + 1) rest

/-- Offset/bit pairs of a message digest, in the order the Rust loops visit
them. -/
def bitPairs (data_hash : List Byte) : List (Nat × Bool) :=
  bitPairsAux 0 data_hash

/-- The verification loop of `PublicKey::verify_signature`: at each offset,
hash `signature[offset]` (panicking if out of bounds) and compare it with
`one_values[offset]` or `zero_values[offset]` according to the bit; return
`false` at the first mismatch. -/
def verifyOffsets (pk : PublicKey) (signature : LamportSignatureData) :
    List (Nat × Bool) → Option Bool
  | [] => some true
  | (offset, bit) :: rest => do
    let s ← signature.get? offset
    let hashed_value := pk.algorithm.digest s
    let target ← if bit then pk.one_values.get? offset
                 else pk.zero_values.get? offset
    if hashed_value == target then verifyOffsets pk signature rest
    else some false

/-- `PublicKey::verify_signature`.  `none` models a Rust panic (the source
indexes `signature[offset]` without any length check). -/
def PublicKey.verify_signature (pk : PublicKey)
    (signature : LamportSignatureData) (data : List Byte) : Option Bool :=
  let data_hash := pk.algorithm.digest data
  verifyOffsets pk signature (bitPairs data_hash)

/-- The closure `hash_values` in `PrivateKey::public_key`: a buffer of
`output_len * 8` entries, entry `i` overwritten with the digest of `x[i]`
(panicking if `x` is too short). -/
def hash_values (alg : Algorithm) (x : List (List Byte)) :
    Option (List (List Byte)) :=
  mapOpt (fun i => (x.get? i).map alg.digest)
    (List.range (alg.output_len * 8))

/-- `PrivateKey::public_key`: hash every preimage of both arrays.  A pure
read of the key (`&self`); `none` models the panic when an array is shorter
than `output_len * 8`. -/
def PrivateKey.public_key (k : PrivateKey) : Option PublicKey := do
  let hashed_zero_values ← hash_values k.algorithm k.zero_values
  let hashed_one_values ← hash_values k.algorithm k.one_values
  pure { zero_values := hashed_zero_values, one_values := hashed_one_values,
         algorithm := k.algorithm }

/-- The signature-building loop of `PrivateKey::sign`: push a clone of
`one_values[offset]` or `zero_values[offset]` for each offset/bit pair. -/
def signLoop (k : PrivateKey) : List (Nat × Bool) → Option LamportSignatureData
  | [] => some []
  | (offset, bit) :: rest => do
    let v ← if bit then k.one_values.get? offset
            else k.zero_values.get? offset
    let restSig ← signLoop k rest
    pure (v :: restSig)

/-- `PrivateKey::sign`, in state-passing style: returns the Rust
`Result<LamportSignatureData, &'static str>` together with the key after the
call.  `none` models a panic inside the loop. -/
def PrivateKey.sign (k : PrivateKey) (data : List Byte) :
    Option (Except String LamportSignatureData × PrivateKey) :=
  if k.used then
    some (Except.error "Attempting to sign more than once.", k)
  else
    let data_hash := k.algorithm.digest data
    match signLoop k (bitPairs data_hash) with
    | none => none
    | some signature => some (Except.ok signature, { k with used := true })

/-- The closure `zeroize_vector` in `impl Drop for PrivateKey`. -/
def zeroize_vector (vector : List (List Byte)) : List (List Byte) :=
  vector.map (fun v2 => v2.map (fun _ => 0))

/-- `impl Drop for PrivateKey`: the state of the key after the drop hook has
run, with every byte of both preimage arrays overwritten by zero. -/
def PrivateKey.drop_hook (k : PrivateKey) : PrivateKey :=
  { k with zero_values := zeroize_vector k.zero_values,
           one_values := zeroize_vector k.one_values }

/-- The elementwise loop of `impl PartialEq for PrivateKey`, with the
short-circuit `||` of the source: `b.one_values[i]` is only read when the
`zero_values` entries agree.  `none` models the panic when `one_values` is
shorter than `zero_values`. -/
def eqLoop (a b : PrivateKey) : List Nat → Option Bool
  | [] => some true
  | i :: rest => do
    let az ← a.zero_values.get? i
    let bz ← b.zero_values.get? i
    if az != bz then some false
    else do
      let ao ← a.one_values.get? i
      let bo ← b.one_values.get? i
      if ao != bo then some false
      else eqLoop a b rest

/-- `impl PartialEq for PrivateKey`: length checks on both arrays, then the
elementwise loop over `0..self.zero_values.len()`.  Note the source compares
only the two preimage arrays — not `algorithm`, not `used`. -/
def PrivateKey.eq (a b : PrivateKey) : Option Bool :=
  if a.one_values.length != b.one_values.length then some false
  else if a.zero_values.length != b.zero_values.length then some false
  else eqLoop a b (List.range a.zero_values.length)

-- Concrete toy algorithms and keys used by witnesses and counterexamples.

/-- A toy 1-byte-output hash algorithm (stands for a static `ring` algorithm
at some address `id = 0`). -/
def toyAlg : Algorithm where
  id := 0
  output_len := 1
  digest := fun data => [data.sum % 256]

/-- A second toy 1-byte-output algorithm at a different static address. -/
def toyAlgB : Algorithm where
  id := 1
  output_len := 1
  digest := fun data => [(data.sum + 1) % 256]

/-- A toy 2-byte-output hash algorithm. -/
def toyAlg2 : Algorithm where
  id := 2
  output_len := 2
  digest := fun data => [data.sum % 256, data.length % 256]

/-- A concrete well-formed private key for `toyAlg` (8 preimages of 1 byte
in each array). -/
def toyKey : PrivateKey where
  zero_values := [[0], [1], [2], [3], [4], [5], [6], [7]]
  one_values := [[8], [9], [10], [11], [12], [13], [14], [15]]
  algorithm := toyAlg
  used := false

/-- A concrete valid public key for `toyAlg` (8 digests of 1 byte in each
array), used as witness input. -/
def toyPub : PublicKey where
  zero_values := [[10], [11], [12], [13], [14], [15], [16], [17]]
  one_values := [[20], [21], [22], [23], [24], [25], [26], [27]]
  algorithm := toyAlg

/-- Bit `offset % 8` of byte `offset / 8` of a digest, tested with the mask
`1 << j` exactly as the Rust loops do. -/
def bitOf (data_hash : List Byte) (offset : Nat) : Bool :=
  decide (data_hash.getD (offset / 8) 0 &&& (1 <<< (offset % 8)) > 0)

/-- The preimage `PrivateKey::sign` pushes at a given offset for a given
message-digest bit. -/
def selectPreimage (k : PrivateKey) (offset : Nat) (bit : Bool) : List Byte :=
  if bit then k.one_values.getD offset [] else k.zero_values.getD offset []

-- Helper lemmas about the loop combinators.

theorem mapOpt_eq_some {α β : Type} (f : α → Option β) (g : α → β) :
    ∀ l : List α, (∀ a ∈ l, f a = some (g a)) → mapOpt f l = some (l.map g)
  | [], _ => rfl
  | a :: l, h => by
    have ha := h a (List.mem_cons_self a l)
    have hl := mapOpt_eq_some f g l (fun x hx => h x (List.mem_cons_of_mem a hx))
    simp [mapOpt, ha, hl]

theorem map_getD_range {α : Type} (xs : List α) (d : α) :
    (List.range xs.length).map (fun k => xs.getD k d) = xs := by
  induction xs with
  | nil => rfl
  | cons x xs ih =>
    rw [List.length_cons, List.range_succ_eq_map, List.map_cons, List.map_map]
    simpa [Function.comp_def, Nat.succ_eq_add_one, List.getElem?_cons_succ]
      using ih

theorem foldl_append_eq_flatten {α : Type} :
    ∀ (l : List (List α)) (acc : List α),
      l.foldl (fun acc i => acc ++ i) acc = acc ++ l.flatten
  | [], acc => by simp
  | x :: l, acc => by
    rw [List.foldl_cons, foldl_append_eq_flatten l (acc ++ x)]
    simp

theorem to_bytes_eq_flatten (pk : PublicKey) :
    pk.to_bytes = (pk.zero_values ++ pk.one_values).flatten := by
  rw [PublicKey.to_bytes, foldl_append_eq_flatten]
  rfl

theorem flatten_length_uniform {α : Type} (L : Nat) :
    ∀ xs : List (List α), (∀ v ∈ xs, v.length = L) →
      xs.flatten.length = xs.length * L
  | [], _ => by simp
  | x :: xs, h => by
    have hx := h x (List.mem_cons_self x xs)
    have ih := flatten_length_uniform L xs
      (fun v hv => h v (List.mem_cons_of_mem x hv))
    simp only [List.flatten_cons, List.length_append, List.length_cons, hx, ih]
    ring

theorem drop_flatten_uniform {α : Type} (L : Nat) :
    ∀ (xs : List (List α)) (k : Nat), (∀ v ∈ xs, v.length = L) →
      xs.flatten.drop (k * L) = (xs.drop k).flatten
  | [], k, _ => by simp
  | _ :: _, 0, _ => by simp
  | x :: xs, k + 1, h => by
    have hx := h x (List.mem_cons_self x xs)
    have ih := drop_flatten_uniform L xs k
      (fun v hv => h v (List.mem_cons_of_mem x hv))
    rw [Nat.succ_mul, Nat.add_comm (k * L) L, List.flatten_cons, ← List.drop_drop,
        List.drop_left' hx, ih, List.drop_succ_cons]

theorem takeChunkAux_eq (merged : List Byte) :
    ∀ (n i : Nat), i + n ≤ merged.length →
      takeChunkAux merged i n = some ((merged.drop i).take n)
  | 0, i, _ => by simp [takeChunkAux]
  | n + 1, i, h => by
    have hi : i < merged.length := by omega
    have ih := takeChunkAux_eq merged n (i + 1) (by omega)
    rw [takeChunkAux, List.get?_eq_get hi, ih]
    simp only [Option.bind_some, Option.pure_def]
    rw [List.drop_eq_getElem_cons hi, List.take_succ_cons]
    rfl

theorem chunkIndices_mul (L : Nat) (hL : 0 < L) :
    ∀ n : Nat, chunkIndices (n * L) L = (List.range n).map (· * L)
  | 0 => by simp [chunkIndices]
  | n + 1 => by
    have ih := chunkIndices_mul L hL n
    rw [chunkIndices, Nat.succ_mul, List.range_add, List.filter_append]
    rw [chunkIndices] at ih
    rw [ih, List.range_succ, List.map_append, List.filter_map]
    congr 1
    have h2 : List.filter ((fun x => x % L == 0) ∘ fun x => n * L + x)
        (List.range L) = [0] := by
      have hpt : ∀ j ∈ List.range L,
          ((fun x => x % L == 0) ∘ fun x => n * L + x) j = (j == 0) := by
        intro j hj
        have hj' : j < L := List.mem_range.mp hj
        simp only [Function.comp_apply]
        rw [Nat.mul_comm n L, Nat.mul_add_mod, Nat.mod_eq_of_lt hj']
      rw [List.filter_congr hpt]
      obtain ⟨m, rfl⟩ := Nat.exists_eq_add_of_lt hL
      rw [Nat.zero_add, List.range_succ_eq_map, List.filter_cons]
      simp [List.filter_map, Function.comp]
    rw [h2]
    simp

theorem chunk_at_index {α : Type} (L : Nat) (xs : List (List α)) (k : Nat)
    (h : ∀ v ∈ xs, v.length = L) (hk : k < xs.length) :
    (xs.flatten.drop (k * L)).take L = xs.getD k [] := by
  rw [drop_flatten_uniform L xs k h, List.drop_eq_getElem_cons hk,
      List.flatten_cons, List.take_left' (h _ (List.getElem_mem hk)),
      List.getD_eq_getElem _ _ hk]

theorem chunksOf_flatten {L : Nat} (hL : 0 < L) (xs : List (List Byte))
    (h : ∀ v ∈ xs, v.length = L) : chunksOf xs.flatten L = some xs := by
  rw [chunksOf, flatten_length_uniform L xs h, chunkIndices_mul L hL xs.length]
  have hmain : ∀ a ∈ (List.range xs.length).map (· * L),
      takeChunkAux xs.flatten a L = some ((xs.flatten.drop a).take L) := by
    intro a ha
    obtain ⟨k, hk, rfl⟩ := List.mem_map.mp ha
    have hk' : k < xs.length := List.mem_range.mp hk
    have hbound : k * L + L ≤ xs.flatten.length := by
      rw [flatten_length_uniform L xs h]
      have : k + 1 ≤ xs.length := hk'
      calc k * L + L = (k + 1) * L := by ring
        _ ≤ xs.length * L := Nat.mul_le_mul_right L this
    exact takeChunkAux_eq xs.flatten L (k * L) hbound
  rw [mapOpt_eq_some _ (fun a => (xs.flatten.drop a).take L) _ hmain]
  congr 1
  rw [List.map_map]
  have hpt : ∀ k ∈ List.range xs.length,
      ((fun a => (xs.flatten.drop a).take L) ∘ (· * L)) k = xs.getD k [] := by
    intro k hk
    exact chunk_at_index L xs k h (List.mem_range.mp hk)
  rw [List.map_congr_left hpt, map_getD_range]

/-- Claim C3: for every valid `PublicKey` (arrays of `B = 8 * output_len`
digests of `output_len` bytes each), `from_vec (to_bytes pk) H` succeeds —
no panic, and the Rust `Option` is `Some` — and the recovered key equals
`pk` under `PublicKey::eq`. -/
theorem roundtrip_from_vec_to_bytes (pk : PublicKey)
    (hL : 0 < pk.algorithm.output_len)
    (hz : pk.zero_values.length = 8 * pk.algorithm.output_len)
    (ho : pk.one_values.length = 8 * pk.algorithm.output_len)
    (hzl : ∀ v ∈ pk.zero_values, v.length = pk.algorithm.output_len)
    (hol : ∀ v ∈ pk.one_values, v.length = pk.algorithm.output_len) :
    ∃ pk2 : PublicKey,
      PublicKey.from_vec pk.to_bytes pk.algorithm = some (some pk2) ∧
      PublicKey.eq pk2 pk = true := by
  have hzf : pk.zero_values.flatten.length =
      (8 * pk.algorithm.output_len) * pk.algorithm.output_len := by
    rw [flatten_length_uniform _ _ hzl, hz]
  have hof : pk.one_values.flatten.length =
      (8 * pk.algorithm.output_len) * pk.algorithm.output_len := by
    rw [flatten_length_uniform _ _ hol, ho]
  have htb : pk.to_bytes = pk.zero_values.flatten ++ pk.one_values.flatten := by
    rw [to_bytes_eq_flatten, List.flatten_append]
  have hhalf : pk.to_bytes.length / 2 =
      (8 * pk.algorithm.output_len) * pk.algorithm.output_len := by
    rw [htb, List.length_append, hzf, hof]; omega
  have htake : pk.to_bytes.take (pk.to_bytes.length / 2) =
      pk.zero_values.flatten := by
    rw [hhalf, htb, List.take_left' hzf]
  have hdrop : pk.to_bytes.drop (pk.to_bytes.length / 2) =
      pk.one_values.flatten := by
    rw [hhalf, htb, List.drop_left' hzf]
  refine ⟨pk, ?_, ?_⟩
  · rw [PublicKey.from_vec]
    simp only [htake, hdrop, chunksOf_flatten hL _ hzl, chunksOf_flatten hL _ hol,
      Option.bind_some, Option.pure_def]
    rfl
  · simp [PublicKey.eq]

theorem bitPairsAux_eq :
    ∀ (h : List Byte) (i : Nat),
      bitPairsAux i h =
        (List.range (h.length * 8)).map (fun n => (i * 8 + n, bitOf h n))
  | [], i => by simp [bitPairsAux]
  | byte :: rest, i => by
    have ih := bitPairsAux_eq rest (i + 1)
    rw [bitPairsAux, ih]
    have hsplit : (byte :: rest).length * 8 = 8 + rest.length * 8 := by
      simp [List.length_cons]; ring
    have hA : (List.range 8).map
          (fun j => (i * 8 + j, decide (byte &&& (1 <<< j) > 0)))
        = (List.range 8).map (fun n => (i * 8 + n, bitOf (byte :: rest) n)) := by
      apply List.map_congr_left
      intro j hj
      have hj' : j < 8 := List.mem_range.mp hj
      simp only [bitOf, List.getD_eq_getElem?_getD, Nat.div_eq_of_lt hj',
        Nat.mod_eq_of_lt hj', List.getElem?_cons_zero, Option.getD_some]
    have hB : (List.range (rest.length * 8)).map
          (fun n => ((i + 1) * 8 + n, bitOf rest n))
        = ((List.range (rest.length * 8)).map (fun x => 8 + x)).map
            (fun n => (i * 8 + n, bitOf (byte :: rest) n)) := by
      rw [List.map_map]
      apply List.map_congr_left
      intro n _
      simp only [Function.comp_apply]
      have h1 : (8 + n) / 8 = n / 8 + 1 := by omega
      have h2 : (8 + n) % 8 = n % 8 := by omega
      have h3 : i * 8 + (8 + n) = (i + 1) * 8 + n := by ring
      simp only [bitOf, List.getD_eq_getElem?_getD, h1, h2, h3,
        List.getElem?_cons_succ]
    rw [hA, hB, ← List.map_append, ← List.range_add, ← hsplit]

theorem bitPairs_eq (h : List Byte) :
    bitPairs h = (List.range (h.length * 8)).map (fun n => (n, bitOf h n)) := by
  have := bitPairsAux_eq h 0
  simpa [bitPairs] using this

theorem signLoop_eq (k : PrivateKey) :
    ∀ ps : List (Nat × Bool),
      (∀ p ∈ ps, p.1 < k.zero_values.length ∧ p.1 < k.one_values.length) →
      signLoop k ps = some (ps.map (fun p => selectPreimage k p.1 p.2))
  | [], _ => rfl
  | (offset, bit) :: ps, h => by
    obtain ⟨h0, h1⟩ := h (offset, bit) (List.mem_cons_self _ _)
    have ih := signLoop_eq k ps (fun p hp => h p (List.mem_cons_of_mem _ hp))
    cases bit with
    | false =>
      simp [signLoop, ih, selectPreimage, List.getElem?_eq_getElem h0]
    | true =>
      simp [signLoop, ih, selectPreimage, List.getElem?_eq_getElem h1]

theorem hash_values_eq (alg : Algorithm) (x : List (List Byte))
    (h : alg.output_len * 8 ≤ x.length) :
    hash_values alg x =
      some ((List.range (alg.output_len * 8)).map
        (fun i => alg.digest (x.getD i []))) := by
  rw [hash_values]
  apply mapOpt_eq_some
  intro i hi
  have hi' : i < x.length := lt_of_lt_of_le (List.mem_range.mp hi) h
  rw [List.get?_eq_get hi', Option.map_some', List.getD_eq_getElem _ _ hi',
    List.get_eq_getElem]

theorem public_key_eq (k : PrivateKey)
    (hz : k.algorithm.output_len * 8 ≤ k.zero_values.length)
    (ho : k.algorithm.output_len * 8 ≤ k.one_values.length) :
    k.public_key = some
      { zero_values := (List.range (k.algorithm.output_len * 8)).map
          (fun i => k.algorithm.digest (k.zero_values.getD i []))
        one_values := (List.range (k.algorithm.output_len * 8)).map
          (fun i => k.algorithm.digest (k.one_values.getD i []))
        algorithm := k.algorithm } := by
  rw [PrivateKey.public_key, hash_values_eq _ _ hz, hash_values_eq _ _ ho]
  rfl

theorem get?_map_range {α : Type} (f : Nat → α) {n B : Nat} (h : n < B) :
    ((List.range B).map f).get? n = some (f n) := by
  rw [List.get?_eq_getElem?, List.getElem?_map, List.getElem?_range h,
    Option.map_some']

theorem verifyOffsets_true (pk : PublicKey) (sig : LamportSignatureData) :
    ∀ ps : List (Nat × Bool),
      (∀ p ∈ ps, ∃ s t, sig.get? p.1 = some s ∧
        (if p.2 then pk.one_values.get? p.1 else pk.zero_values.get? p.1)
          = some t ∧
        pk.algorithm.digest s = t) →
      verifyOffsets pk sig ps = some true
  | [], _ => rfl
  | (offset, bit) :: ps, h => by
    obtain ⟨s, t, hs, ht, hd⟩ := h (offset, bit) (List.mem_cons_self _ _)
    have ih := verifyOffsets_true pk sig ps
      (fun p hp => h p (List.mem_cons_of_mem _ hp))
    rw [List.get?_eq_getElem?] at hs
    cases bit with
    | false =>
      simp at ht
      simp [verifyOffsets, hs, ht, hd, ih]
    | true =>
      simp at ht
      simp [verifyOffsets, hs, ht, hd, ih]

theorem sign_eq (k : PrivateKey) (m : List Byte) (hu : k.used = false)
    (hz : k.algorithm.output_len * 8 ≤ k.zero_values.length)
    (ho : k.algorithm.output_len * 8 ≤ k.one_values.length)
    (hd : (k.algorithm.digest m).length = k.algorithm.output_len) :
    k.sign m = some (Except.ok
      ((List.range (k.algorithm.output_len * 8)).map
        (fun n => selectPreimage k n (bitOf (k.algorithm.digest m) n))),
      { k with used := true }) := by
  have hps : bitPairs (k.algorithm.digest m)
      = (List.range (k.algorithm.output_len * 8)).map
          (fun n => (n, bitOf (k.algorithm.digest m) n)) := by
    rw [bitPairs_eq, hd]
  have hmem : ∀ p ∈ (List.range (k.algorithm.output_len * 8)).map
      (fun n => (n, bitOf (k.algorithm.digest m) n)),
      p.1 < k.zero_values.length ∧ p.1 < k.one_values.length := by
    intro p hp
    obtain ⟨a, ha, rfl⟩ := List.mem_map.mp hp
    have h := List.mem_range.mp ha
    exact ⟨lt_of_lt_of_le h hz, lt_of_lt_of_le h ho⟩
  have hsig := signLoop_eq k _ hmem
  rw [List.map_map] at hsig
  simp only [Function.comp_def] at hsig
  simp only [PrivateKey.sign, hu, Bool.false_eq_true, if_false, hps, hsig]

/-- Claim C4: for every freshly generated (unused, well-formed) private key
and every message, signing succeeds and the signature verifies against the
derived public key: the whole pipeline returns `some true` with no panic. -/
theorem sign_then_verify (k : PrivateKey) (m : List Byte)
    (hd : k.algorithm.valid)
    (hz : k.zero_values.length = k.algorithm.output_len * 8)
    (ho : k.one_values.length = k.algorithm.output_len * 8)
    (hu : k.used = false) :
    ∃ (sig : LamportSignatureData) (k2 : PrivateKey) (pk : PublicKey),
      k.sign m = some (Except.ok sig, k2) ∧
      k.public_key = some pk ∧
      pk.verify_signature sig m = some true := by
  refine ⟨_, _, _, sign_eq k m hu hz.ge ho.ge (hd m),
    public_key_eq k hz.ge ho.ge, ?_⟩
  have hps : bitPairs (k.algorithm.digest m)
      = (List.range (k.algorithm.output_len * 8)).map
          (fun n => (n, bitOf (k.algorithm.digest m) n)) := by
    rw [bitPairs_eq, hd m]
  show verifyOffsets _ _ (bitPairs (k.algorithm.digest m)) = some true
  rw [hps]
  apply verifyOffsets_true
  intro p hp
  obtain ⟨a, ha, rfl⟩ := List.mem_map.mp hp
  have haB := List.mem_range.mp ha
  refine ⟨selectPreimage k a (bitOf (k.algorithm.digest m) a),
    k.algorithm.digest (selectPreimage k a (bitOf (k.algorithm.digest m) a)),
    get?_map_range _ haB, ?_, rfl⟩
  cases hbit : bitOf (k.algorithm.digest m) a with
  | true =>
    simp only [if_pos rfl]
    rw [get?_map_range _ haB]
    simp [selectPreimage]
  | false =>
    simp only [Bool.false_eq_true, if_false]
    rw [get?_map_range _ haB]
    simp [selectPreimage]

/-- Claim C4 witness at the concrete toy key and message `[42]`. -/
theorem sign_then_verify_witness :
    toyKey.algorithm.valid ∧
    toyKey.zero_values.length = toyKey.algorithm.output_len * 8 ∧
    toyKey.one_values.length = toyKey.algorithm.output_len * 8 ∧
    toyKey.used = false ∧
    ∃ (sig : LamportSignatureData) (k2 : PrivateKey) (pk : PublicKey),
      toyKey.sign [42] = some (Except.ok sig, k2) ∧
      toyKey.public_key = some pk ∧
      pk.verify_signature sig [42] = some true :=
  ⟨fun _ => rfl, by decide, by decide, rfl,
    sign_then_verify toyKey [42] (fun _ => rfl) (by decide) (by decide) rfl⟩

/-- Claim C5: signing a used key returns the error and leaves the key
unchanged; signing an unused key succeeds, sets `used`, and every further
`sign` call on the resulting key returns the error without further change. -/
theorem sign_at_most_once (k : PrivateKey) (m : List Byte)
    (hd : k.algorithm.valid)
    (hz : k.zero_values.length = k.algorithm.output_len * 8)
    (ho : k.one_values.length = k.algorithm.output_len * 8) :
    (k.used = true →
      k.sign m = some (Except.error "Attempting to sign more than once.", k)) ∧
    (k.used = false → ∃ sig k2, k.sign m = some (Except.ok sig, k2) ∧
      k2.used = true ∧ k2.zero_values = k.zero_values ∧
      k2.one_values = k.one_values ∧ k2.algorithm = k.algorithm ∧
      ∀ m2, k2.sign m2 =
        some (Except.error "Attempting to sign more than once.", k2)) := by
  constructor
  · intro hu
    simp [PrivateKey.sign, hu]
  · intro hu
    refine ⟨_, _, sign_eq k m hu hz.ge ho.ge (hd m), rfl, rfl, rfl, rfl, ?_⟩
    intro m2
    simp [PrivateKey.sign]

/-- Claim C5 witness at the concrete toy key. -/
theorem sign_at_most_once_witness :
    toyKey.algorithm.valid ∧
    toyKey.zero_values.length = toyKey.algorithm.output_len * 8 ∧
    toyKey.one_values.length = toyKey.algorithm.output_len * 8 ∧
    ((toyKey.used = true → toyKey.sign [] =
        some (Except.error "Attempting to sign more than once.", toyKey)) ∧
     (toyKey.used = false → ∃ sig k2,
        toyKey.sign [] = some (Except.ok sig, k2) ∧
        k2.used = true ∧ k2.zero_values = toyKey.zero_values ∧
        k2.one_values = toyKey.one_values ∧ k2.algorithm = toyKey.algorithm ∧
        ∀ m2, k2.sign m2 =
          some (Except.error "Attempting to sign more than once.", k2))) :=
  ⟨fun _ => rfl, by decide, by decide,
    sign_at_most_once toyKey [] (fun _ => rfl) (by decide) (by decide)⟩

/-- Claim C7: the signature has exactly `output_len * 8` entries; entry `n`
is `one_values[n]` when bit `n % 8` of byte `n / 8` of the message digest
(tested with mask `1 << (n % 8)`) is set and `zero_values[n]` otherwise, and
the call changes nothing in the key but the `used` flag. -/
theorem sign_selects_preimages_by_digest_bits (k : PrivateKey) (m : List Byte)
    (hd : k.algorithm.valid)
    (hz : k.zero_values.length = k.algorithm.output_len * 8)
    (ho : k.one_values.length = k.algorithm.output_len * 8)
    (hu : k.used = false) :
    ∃ sig k2, k.sign m = some (Except.ok sig, k2) ∧
      sig.length = k.algorithm.output_len * 8 ∧
      (∀ n, n < k.algorithm.output_len * 8 →
        sig.get? n = some (if bitOf (k.algorithm.digest m) n
          then k.one_values.getD n [] else k.zero_values.getD n [])) ∧
      k2.zero_values = k.zero_values ∧ k2.one_values = k.one_values ∧
      k2.algorithm = k.algorithm ∧ k2.used = true := by
  refine ⟨_, _, sign_eq k m hu hz.ge ho.ge (hd m), by simp, ?_,
    rfl, rfl, rfl, rfl⟩
  intro n hn
  rw [get?_map_range _ hn]
  rfl

/-- Claim C7 witness at the concrete toy key and message `[3]`. -/
theorem sign_selects_preimages_by_digest_bits_witness :
    toyKey.algorithm.valid ∧
    toyKey.zero_values.length = toyKey.algorithm.output_len * 8 ∧
    toyKey.one_values.length = toyKey.algorithm.output_len * 8 ∧
    toyKey.used = false ∧
    ∃ sig k2, toyKey.sign [3] = some (Except.ok sig, k2) ∧
      sig.length = toyKey.algorithm.output_len * 8 ∧
      (∀ n, n < toyKey.algorithm.output_len * 8 →
        sig.get? n = some (if bitOf (toyKey.algorithm.digest [3]) n
          then toyKey.one_values.getD n [] else toyKey.zero_values.getD n [])) ∧
      k2.zero_values = toyKey.zero_values ∧
      k2.one_values = toyKey.one_values ∧
      k2.algorithm = toyKey.algorithm ∧ k2.used = true :=
  ⟨fun _ => rfl, by decide, by decide, rfl,
    sign_selects_preimages_by_digest_bits toyKey [3] (fun _ => rfl)
      (by decide) (by decide) rfl⟩

/-- Claim C6: public-key derivation is a pure function of the private key
(it is modelled as a plain function of the key value, mirroring the `&self`
receiver: it cannot touch `used` and repeated calls agree by determinism);
the derived key keeps the algorithm and has `output_len * 8` digests per
array, each of the hash output length, with entry `i` of each array the
digest of the private preimage at the same array and index. -/
theorem public_key_derivation_correct (k : PrivateKey)
    (hd : k.algorithm.valid)
    (hz : k.zero_values.length = k.algorithm.output_len * 8)
    (ho : k.one_values.length = k.algorithm.output_len * 8) :
    ∃ pk : PublicKey, k.public_key = some pk ∧
      pk.algorithm = k.algorithm ∧
      pk.zero_values.length = k.algorithm.output_len * 8 ∧
      pk.one_values.length = k.algorithm.output_len * 8 ∧
      (∀ v ∈ pk.zero_values, v.length = k.algorithm.output_len) ∧
      (∀ v ∈ pk.one_values, v.length = k.algorithm.output_len) ∧
      (∀ n, n < k.algorithm.output_len * 8 →
        pk.zero_values.get? n = (k.zero_values.get? n).map k.algorithm.digest ∧
        pk.one_values.get? n = (k.one_values.get? n).map k.algorithm.digest) := by
  refine ⟨_, public_key_eq k hz.ge ho.ge, rfl, by simp, by simp, ?_, ?_, ?_⟩
  · intro v hv
    obtain ⟨i, _, rfl⟩ := List.mem_map.mp hv
    exact hd _
  · intro v hv
    obtain ⟨i, _, rfl⟩ := List.mem_map.mp hv
    exact hd _
  · intro n hn
    have hn0 : n < k.zero_values.length := lt_of_lt_of_le hn hz.ge
    have hn1 : n < k.one_values.length := lt_of_lt_of_le hn ho.ge
    constructor
    · rw [get?_map_range _ hn, List.get?_eq_getElem?,
        List.getElem?_eq_getElem hn0, Option.map_some',
        List.getD_eq_getElem _ _ hn0]
    · rw [get?_map_range _ hn, List.get?_eq_getElem?,
        List.getElem?_eq_getElem hn1, Option.map_some',
        List.getD_eq_getElem _ _ hn1]

/-- Claim C6 witness at the concrete toy key. -/
theorem public_key_derivation_correct_witness :
    toyKey.algorithm.valid ∧
    toyKey.zero_values.length = toyKey.algorithm.output_len * 8 ∧
    toyKey.one_values.length = toyKey.algorithm.output_len * 8 ∧
    ∃ pk : PublicKey, toyKey.public_key = some pk ∧
      pk.algorithm = toyKey.algorithm ∧
      pk.zero_values.length = toyKey.algorithm.output_len * 8 ∧
      pk.one_values.length = toyKey.algorithm.output_len * 8 ∧
      (∀ v ∈ pk.zero_values, v.length = toyKey.algorithm.output_len) ∧
      (∀ v ∈ pk.one_values, v.length = toyKey.algorithm.output_len) ∧
      (∀ n, n < toyKey.algorithm.output_len * 8 →
        pk.zero_values.get? n =
          (toyKey.zero_values.get? n).map toyKey.algorithm.digest ∧
        pk.one_values.get? n =
          (toyKey.one_values.get? n).map toyKey.algorithm.digest) :=
  ⟨fun _ => rfl, by decide, by decide,
    public_key_derivation_correct toyKey (fun _ => rfl) (by decide) (by decide)⟩

/-- Claim C9: after the drop hook runs, every byte of every preimage in both
arrays is zero, with no condition on `used` or on whether the key signed. -/
theorem drop_hook_zeroizes (k : PrivateKey) :
    ∀ v ∈ k.drop_hook.zero_values ++ k.drop_hook.one_values, ∀ b ∈ v, b = 0 := by
  intro v hv b hb
  simp only [PrivateKey.drop_hook, zeroize_vector] at hv
  rcases List.mem_append.mp hv with h | h <;>
  · obtain ⟨v0, _, rfl⟩ := List.mem_map.mp h
    obtain ⟨b0, _, rfl⟩ := List.mem_map.mp hb
    rfl

/-- Claim C9 witness: a concrete byte of a concrete entry of the dropped toy
key (whose preimages are nonzero before the hook) is zero. -/
theorem drop_hook_zeroizes_witness :
    ([0] ∈ toyKey.drop_hook.zero_values ++ toyKey.drop_hook.one_values) ∧
    ((0 : Byte) ∈ ([0] : List Byte)) ∧ (0 : Byte) = 0 :=
  ⟨by decide, by decide,
    drop_hook_zeroizes toyKey [0] (by decide) 0 (by decide)⟩

theorem eqLoop_self (a b : PrivateKey)
    (hzz : b.zero_values = a.zero_values)
    (hoo : b.one_values = a.one_values) :
    ∀ l : List Nat,
      (∀ i ∈ l, i < a.zero_values.length ∧ i < a.one_values.length) →
      eqLoop a b l = some true
  | [], _ => rfl
  | i :: l, h => by
    obtain ⟨h0, h1⟩ := h i (List.mem_cons_self _ _)
    have ih := eqLoop_self a b hzz hoo l
      (fun j hj => h j (List.mem_cons_of_mem _ hj))
    simp [eqLoop, hzz, hoo, List.getElem?_eq_getElem h0,
      List.getElem?_eq_getElem h1, ih]

/-- Claim C10 (implicit): `PrivateKey` equality never looks at `used`, so a
key compares equal to its copy with the flag flipped. -/
theorem private_key_eq_ignores_used (k : PrivateKey)
    (h : k.zero_values.length ≤ k.one_values.length) :
    PrivateKey.eq k { k with used := !k.used } = some true := by
  have hmem : ∀ i ∈ List.range k.zero_values.length,
      i < k.zero_values.length ∧ i < k.one_values.length := by
    intro i hi
    have hilt := List.mem_range.mp hi
    exact ⟨hilt, lt_of_lt_of_le hilt h⟩
  have hloop := eqLoop_self k { k with used := !k.used } rfl rfl
    (List.range k.zero_values.length) hmem
  simp [PrivateKey.eq, hloop]

/-- Claim C10 witness at the concrete toy key. -/
theorem private_key_eq_ignores_used_witness :
    toyKey.zero_values.length ≤ toyKey.one_values.length ∧
    PrivateKey.eq toyKey { toyKey with used := !toyKey.used } = some true :=
  ⟨by decide, private_key_eq_ignores_used toyKey (by decide)⟩

/-- Claim C1 (code bug): `verify_signature` has no length check.  On the toy
key, `[[0],…,[7]]` is the genuine signature of the empty message; removing
its last preimage makes verification panic with an out-of-bounds index
(`none`), and appending an extra preimage makes it return `true` — in both
cases the claimed `false` is not returned. -/
theorem verify_signature_wrong_length_panics_or_accepts :
    ∃ (k2 : PrivateKey) (pk : PublicKey),
      toyKey.sign [] = some (Except.ok
        [[0], [1], [2], [3], [4], [5], [6], [7]], k2) ∧
      toyKey.public_key = some pk ∧
      pk.verify_signature [[0], [1], [2], [3], [4], [5], [6]] [] = none ∧
      pk.verify_signature [[0], [1], [2], [3], [4], [5], [6], [7], [9]] []
        = some true :=
  ⟨_, _, rfl, rfl, rfl, rfl⟩

/-- Claim C2 (code bug): `from_vec` has no length check and no failing
return: it never produces the Rust `None` on any input; a one-byte
truncation or extension of a valid 64-byte encoding for the 2-byte toy
algorithm makes it panic (`none`), and other wrong lengths decode silently
into a wrong-shaped key. -/
theorem from_vec_wrong_length_panics_or_accepts :
    (∀ (vec : List Byte) (alg : Algorithm),
      PublicKey.from_vec vec alg = none ∨
      ∃ pk, PublicKey.from_vec vec alg = some (some pk)) ∧
    PublicKey.from_vec ((List.range 64).take 63) toyAlg2 = none ∧
    PublicKey.from_vec (List.range 64 ++ [0]) toyAlg2 = none ∧
    (∃ pk, PublicKey.from_vec (List.range 60) toyAlg2 = some (some pk)) := by
  refine ⟨?_, rfl, rfl, ⟨_, rfl⟩⟩
  intro vec alg
  simp only [PublicKey.from_vec, Option.pure_def]
  cases h1 : chunksOf (vec.take (vec.length / 2)) alg.output_len with
  | none => exact Or.inl rfl
  | some z =>
    cases h2 : chunksOf (vec.drop (vec.length / 2)) alg.output_len with
    | none => exact Or.inl rfl
    | some o => exact Or.inr ⟨_, rfl⟩

/-- Claim C8 (code bug): `PrivateKey::eq` compares only the two preimage
arrays; two keys with identical preimages but different hash algorithms
(different static algorithm values, here even with different output
lengths) compare equal, contradicting the spec and the repo test. -/
theorem private_key_eq_ignores_algorithm :
    toyKey.algorithm.id ≠ toyAlg2.id ∧
    toyKey.algorithm.output_len ≠ toyAlg2.output_len ∧
    PrivateKey.eq toyKey { toyKey with algorithm := toyAlg2 } = some true :=
  ⟨by decide, by decide, by decide⟩

theorem roundtrip_from_vec_to_bytes_witness :
    0 < toyPub.algorithm.output_len ∧
    toyPub.zero_values.length = 8 * toyPub.algorithm.output_len ∧
    toyPub.one_values.length = 8 * toyPub.algorithm.output_len ∧
    (∀ v ∈ toyPub.zero_values, v.length = toyPub.algorithm.output_len) ∧
    (∀ v ∈ toyPub.one_values, v.length = toyPub.algorithm.output_len) ∧
    ∃ pk2 : PublicKey,
      PublicKey.from_vec toyPub.to_bytes toyPub.algorithm = some (some pk2) ∧
      PublicKey.eq pk2 toyPub = true :=
  ⟨by decide, by decide, by decide, by decide, by decide,
    roundtrip_from_vec_to_bytes toyPub (by decide) (by decide) (by decide)
      (by decide) (by decide)⟩
